import Mathlib

/-!
Shallow embedding of the numeric anomaly-detection / ohmic-area core of
`watex/tools/exmath.py` (functions `find_limit_for_integration`,
`find_bound_for_integration`, `fitfunc`, `vesDataOperator`,
`dummy_basement_curve`, `ohmicArea`, `shape`), together with theorems
settling the specification claims about them.

Modelling conventions:
* machine floats are modelled as rationals (`ℚ`); the external numeric
  black boxes (`np.polyfit`, `scipy.integrate.quad`, `np.sin`) are
  parameters of the embedding (`NumOracle`), so every theorem holds for
  any behaviour of those libraries;
* a Python exception is an `Except` error value; distinct raise sites get
  distinct constructors of `WxErr`;
* the in-place mutation of the Python list argument `b0` is made explicit:
  the two bound finders return the result together with the final contents
  of the `b0` object, and a call that leaves `b0` at its (shared, mutable)
  default is modelled by threading that shared list through `DefaultCall`.
-/

namespace Watex

/-- Decidable equality for `Except`, so that concrete runs of the embedded
functions can be checked by `decide`. -/
instance {ε α : Type} [DecidableEq ε] [DecidableEq α] : DecidableEq (Except ε α) :=
  fun x y =>
    match x, y with
    | .ok a, .ok b =>
        if h : a = b then isTrue (by rw [h])
        else isFalse (by intro hc; cases hc; exact h rfl)
    | .error a, .error b =>
        if h : a = b then isTrue (by rw [h])
        else isFalse (by intro hc; cases hc; exact h rfl)
    | .ok _, .error _ => isFalse (by intro hc; cases hc)
    | .error _, .ok _ => isFalse (by intro hc; cases hc)

/-- Error outcomes of the embedded functions; one constructor per distinct
raise site (Python exception class and message). -/
inductive WxErr where
  /-- `Wex.VESError` in `vesDataOperator`: `AB` and `rhoa` differ in length. -/
  | lengthMismatchVES
  /-- `ValueError` in `vesDataOperator`: unacceptable `typeofop` argument. -/
  | invalidOp
  /-- numpy `ValueError` in `vesDataOperator`: boolean mask assignment
      `Y[maskr] = d0` with mismatched sizes. -/
  | broadcastErr
  /-- `ValueError` re-raised at `ohmicArea` line 534: could not convert the
      `ohmSkey` value to float. -/
  | conversionErr
  /-- `Wex.VESError` at `ohmicArea` line 537: `ohmSkey >= X.max()`. -/
  | invalidKeyDepth
  /-- numpy `TypeError` raised inside `np.polyfit` (empty `x`, or `x` and
      `y` of different lengths). -/
  | polyfitTypeErr
  /-- numpy `ValueError`: zero-size array to reduction operation
      (`ix_arr.min()` on an empty array, `X.max()` on an empty array). -/
  | emptyReduceErr
  /-- Python `ValueError`: `min()` / `max()` of an empty sequence
      (`min(ix_arr[index])` when no residual index is zero). -/
  | minEmptySeqErr
  /-- numpy `ValueError` from `np.split` (array split does not result in an
      equal division) or tuple destructuring of a malformed root pair. -/
  | splitErr
  /-- `Wex.StationError` in `shape`: station index out of range. -/
  | stationErr
  /-- numpy `ValueError` from `np.argmin` on an empty array. -/
  | argminEmptyErr
  deriving DecidableEq, Repr

/-! ### Small numpy / Python helpers -/

/-- Python builtin `min` / numpy `.min()` on a nonempty list (`0` junk value
on the empty list; every call site guards emptiness). -/
def listMinI (l : List ℤ) : ℤ :=
  match l with
  | [] => 0
  | x :: xs => xs.foldl min x

/-- Python builtin `max` / numpy `.max()` on a nonempty list of integers. -/
def listMaxI (l : List ℤ) : ℤ :=
  match l with
  | [] => 0
  | x :: xs => xs.foldl max x

/-- Python builtin `max` on a nonempty list of indices (natural numbers);
`foldl max 0` agrees with it on nonempty lists of naturals. -/
def listMaxN (l : List ℕ) : ℕ := l.foldl max 0

/-- numpy `.min()` on a nonempty list of rationals. -/
def listMinQ (l : List ℚ) : ℚ :=
  match l with
  | [] => 0
  | x :: xs => xs.foldl min x

/-- numpy `.max()` on a nonempty list of rationals. -/
def listMaxQ (l : List ℚ) : ℚ :=
  match l with
  | [] => 0
  | x :: xs => xs.foldl max x

/-- `np.linspace a b n`: `n` evenly spaced samples from `a` to `b`,
endpoints included. -/
def linspace (a b : ℚ) (n : ℕ) : List ℚ :=
  if n = 0 then []
  else if n = 1 then [a]
  else (List.range n).map (fun i => a + (b - a) * i / ((n : ℚ) - 1))

/-- One step of scipy `argrelextrema(y, np.less)` (mode `clip`): index `i`
is a strict local minimum when it has both neighbours and is strictly
smaller than each (endpoints are never extrema). -/
def isLocalMin (y : List ℚ) (i : ℕ) : Bool :=
  decide (0 < i) && decide (i + 1 < y.length) &&
  decide (y.getD i 0 < y.getD (i - 1) 0) && decide (y.getD i 0 < y.getD (i + 1) 0)

/-- One step of scipy `argrelextrema(y, np.greater)`. -/
def isLocalMax (y : List ℚ) (i : ℕ) : Bool :=
  decide (0 < i) && decide (i + 1 < y.length) &&
  decide (y.getD (i - 1) 0 < y.getD i 0) && decide (y.getD (i + 1) 0 < y.getD i 0)

/-- `argrelextrema(y, np.less)[0]`: indices of the strict local minima. -/
def argrelLess (y : List ℚ) : List ℕ :=
  (List.range y.length).filter (isLocalMin y)

/-- `argrelextrema(y, np.greater)[0]`: indices of the strict local maxima. -/
def argrelGreater (y : List ℚ) : List ℕ :=
  (List.range y.length).filter (isLocalMax y)

/-- Accumulator loop of `np.argmin`: scan with the current best index and
value, keeping the earliest index on ties (strict `<` update). -/
def argminAux (bi : ℕ) (bv : ℚ) (i : ℕ) : List ℚ → ℕ × ℚ
  | [] => (bi, bv)
  | v :: rest =>
      if v < bv then argminAux i v (i + 1) rest else argminAux bi bv (i + 1) rest

/-- `np.argmin` on a nonempty list: index of the first occurrence of the
minimum (`0` junk on the empty list; call sites guard emptiness). -/
def npArgmin : List ℚ → ℕ
  | [] => 0
  | x :: xs => (argminAux 0 x 1 xs).1

/-- `np.median`: middle element of the sorted values, or the mean of the
two middle elements for even length. -/
def npMedian (l : List ℚ) : ℚ :=
  let s := List.insertionSort (· ≤ ·) l
  let n := l.length
  if n % 2 = 1 then s.getD (n / 2) 0
  else (s.getD (n / 2 - 1) 0 + s.getD (n / 2) 0) / 2

/-- Python truthiness of `a and b` for numbers: `a` if `a` is zero
(falsy), otherwise `b`. -/
def pyAnd (a b : ℚ) : ℚ := if a = 0 then a else b

/-! ### shape (exmath.py lines 753-867) — AnomalyShapeClassifier -/

/-- The seven anomaly shapes. -/
inductive Shape where
  | V | U | W | M | K | C | H
  deriving DecidableEq, Repr

/-- Body of `shape` after the station index has been resolved
(exmath.py lines 834-867): bounds split, strict extrema counts on each
side, comparison of the end values with the median of the whole zone. -/
def shapeCore (cz : List ℚ) (sIndex : ℕ) : Except WxErr Shape :=
  if cz.length ≤ sIndex then .error .stationErr
  else
    let lbound := cz.take (sIndex + 1)
    let rbound := cz.drop sIndex
    let ls := lbound.headD 0
    let rs := rbound.getLastD 0
    let lminls := argrelLess lbound
    let lminrs := argrelLess rbound
    let lmaxls := argrelGreater lbound
    let lmaxrs := argrelGreater rbound
    let med := npMedian cz
    .ok (
      if (med ≤ ls ∧ rs < med) ∨ (ls < med ∧ med ≤ rs) then
        if lminls.length = 0 ∧ lminrs.length = 0 then .C
        else if (lminls.length = 0 ∧ lminrs.length ≠ 0) ∨
                (lminls.length ≠ 0 ∧ lminrs.length = 0) then .K
        else .V
      else if med < pyAnd ls rs then
        if lminls.length = 0 ∧ lminrs.length = 0 then .U
        else if (lminls.length = 0 ∧ lminrs.length = 1) ∨
                (lminrs.length = 0 ∧ lminls.length = 1) then .H
        else if 1 ≤ lminls.length ∧ 1 ≤ lminrs.length then .W
        else .V
      else if ls < med ∧ rs < med then
        if (1 ≤ lmaxls.length ∧ 0 ≤ lmaxrs.length) ∨
           (lmaxls.length ≤ 0 ∧ 1 ≤ lmaxrs.length) then .M
        else .V
      else .V)

/-- `shape cz s` (exmath.py lines 753-867).  The station argument is either
absent (Python `None`/`...`, so `np.argmin(cz)` is used — a `ValueError`
on an empty zone) or an integer index.  The string-station branch
(`detect_station_position`) takes a station *name* plus positions and is
outside the claims' scope. -/
def shape_ (cz : List ℚ) (s : Option ℕ) : Except WxErr Shape :=
  match s with
  | none =>
      match cz with
      | [] => .error .argminEmptyErr
      | _ :: _ => shapeCore cz (npArgmin cz)
  | some i => shapeCore cz i

/-! ### Integration-bound finders (exmath.py lines 99-169) -/

/-- Python negative-index read `ix_arr[jj-1]` for a loop counter `jj`:
index `-1` wraps to the last element. -/
def pyPrev (ix : List ℤ) (jj : ℕ) : ℤ :=
  if jj = 0 then ix.getLastD 0 else ix.getD (jj - 1) 0

/-- Loop body of `find_limit_for_integration` (lines 122-127): state is
`(s, oc, b0)`; at each element `v` the gap `v - s` decides whether the
current run is closed (`b0.append(oc); b0.append(ix_arr[jj-1])`), and `s`
is reset to `v` in either case. -/
def findLimitAux (ix : List ℤ) (jj : ℕ) (s oc : ℤ) (b : List ℤ) :
    List ℤ → ℤ × ℤ × List ℤ
  | [] => (s, oc, b)
  | v :: rest =>
      if v - s ≠ 1 then findLimitAux ix (jj + 1) v v (b ++ [oc, pyPrev ix jj]) rest
      else findLimitAux ix (jj + 1) v oc b rest

/-- `find_limit_for_integration ix_arr b0` (lines 99-131): iterative run
detection.  On an empty array `ix_arr.min()` raises (numpy zero-size
reduction).  After the loop the guard `v == ix_arr[-1]` always holds (the
loop variable ends at the last element), so the final run is closed
unconditionally.  Returns the result together with the final contents of
the (mutated-in-place) `b0` list object. -/
def find_limit_for_integration (ix : List ℤ) (b0 : List ℤ) :
    Except WxErr (List ℤ) × List ℤ :=
  match ix with
  | [] => (.error .emptyReduceErr, b0)
  | x :: xs =>
      let m := listMinI (x :: xs)
      let r := findLimitAux (x :: xs) 0 (m - 1) m b0 (x :: xs)
      let out := r.2.2 ++ [r.2.1, xs.getLastD x]
      (.ok out, out)

/-- `find_bound_for_integration ix_arr b0` (lines 134-169): vectorized
recursive run detection.  Each step subtracts the arithmetic progression
`arange(min, len+min)` from `ix_arr`, reads off the indices with zero
residual, appends the min and max of the values at those indices, and
recurses on the remainder.  `ix_arr.min()` on an empty array raises
(numpy zero-size reduction); `min(ix_arr[index])` on an empty index set
raises (builtin `min` of an empty sequence).  Returns the result together
with the final contents of the (mutated-in-place) `b0` list object.
The first argument is structural fuel bounding the recursion depth. -/
def findBoundAux : ℕ → List ℤ → List ℤ → Except WxErr (List ℤ) × List ℤ
  | _, [], b0 => (.error .emptyReduceErr, b0)
  -- fuel exhaustion is unreachable: every recursive call strictly shortens
  -- the array, so `ix.length` units of fuel always suffice (`findBoundAux_spec`)
  | 0, _ :: _, b0 => (.error .emptyReduceErr, b0)
  | fuel + 1, x :: xs, b0 =>
      let ix := x :: xs
      let m := listMinI ix
      -- indices where `ix_arr - np.arange(min, len+min)` vanishes
      let idx := (List.range ix.length).filter (fun i => decide (ix.getD i 0 = m + (i : ℤ)))
      match idx with
      | [] => (.error .minEmptySeqErr, b0)
      | _ :: _ =>
          let vals := idx.map (fun i => ix.getD i 0)
          let b1 := b0 ++ [listMinI vals, listMaxI vals]
          let rest := ix.drop (listMaxN idx + 1)
          -- `len(array_init) == 0` test of line 168
          if rest = [] then (.ok b1, b1)
          else findBoundAux fuel rest b1

/-- Entry point of the recursive bound finder: the recursion depth is at
most the array length, so that much fuel is always enough. -/
def find_bound_for_integration (ix : List ℤ) (b0 : List ℤ) :
    Except WxErr (List ℤ) × List ℤ :=
  findBoundAux ix.length ix b0

/-- Reference description of both bound finders on a strictly increasing
array: the flattened list of `(first, last)` endpoints of the maximal runs
of consecutive integers.  `runBoundsAux oc prev l` scans `l` with the
current run start `oc` and previous value `prev`. -/
def runBoundsAux (oc prev : ℤ) : List ℤ → List ℤ
  | [] => [oc, prev]
  | v :: rest =>
      if v = prev + 1 then runBoundsAux oc v rest
      else [oc, prev] ++ runBoundsAux v v rest

/-- Flattened run endpoints of a strictly increasing integer list. -/
def runBounds : List ℤ → List ℤ
  | [] => []
  | x :: xs => runBoundsAux x x xs

/-- Length of the initial run of consecutive successors of `p`. -/
def runLen (p : ℤ) : List ℤ → ℕ
  | [] => 0
  | v :: rest => if v = p + 1 then runLen v rest + 1 else 0

/-! ### vesDataOperator (exmath.py lines 210-323) — DuplicateSpacingReducer -/

/-- Aggregation mode for duplicated spacings.  `typeofop=None` is accepted
and treated as `mean`; the random `leaveOneOut` mode draws from an
unseeded global generator and is outside this deterministic embedding (no
claim exercises it); any other string raises `ValueError` before this
point. -/
inductive VesOp where
  | none | mean | median
  deriving DecidableEq, Repr

/-- Scan computing `AB_[~mask]`: the values at non-first occurrences, in
original order (`mask` marks the first occurrence of each value, via
`np.unique(..., return_index=True)`). -/
def dupValuesAux : List ℚ → List ℚ → List ℚ
  | _, [] => []
  | seen, v :: rest =>
      if v ∈ seen then v :: dupValuesAux (seen ++ [v]) rest
      else dupValuesAux (seen ++ [v]) rest

/-- Values of `AB` that are repeats of an earlier element, in order and
with multiplicity (`dup_values = AB_[~mask]`). -/
def dupValues (AB : List ℚ) : List ℚ := dupValuesAux [] AB

/-- `np.unique(AB)`: the sorted distinct values. -/
def sortedDedup (AB : List ℚ) : List ℚ :=
  (List.insertionSort (· ≤ ·) AB).dedup

/-- Index of the first occurrence of `v` in `AB` (`np.unique`'s
`return_index`); junk `AB.length`-past-the-end when absent (call sites use
it only for members). -/
def firstIdx (AB : List ℚ) (v : ℚ) : ℕ :=
  match AB with
  | [] => 0
  | x :: xs => if x = v then 0 else firstIdx xs v + 1

/-- Aggregate of the resistivities collected at the duplicated spacing `d`
(`rhoa_[AB_ == d]` reduced by the selected operation). -/
def aggDup (op : VesOp) (AB rhoa : List ℚ) (d : ℚ) : ℚ :=
  let vals := ((AB.zip rhoa).filter (fun p => p.1 = d)).map (fun p => p.2)
  match op with
  | .median => npMedian vals
  | _ => vals.sum / (vals.length : ℚ)

/-- Boolean-mask assignment `Y[maskr] = d0`: walk `Y` and the mask
together, consuming the next element of `d0` at each `true` position.
(The call site first checks that `d0` has exactly as many elements as the
mask has `true` entries — numpy raises otherwise — so the `d0`-exhausted
fallback is unreachable.) -/
def maskAssign : List ℚ → List Bool → List ℚ → List ℚ
  | y :: ys, b :: bs, d =>
      if b then d.headD y :: maskAssign ys bs d.tail
      else y :: maskAssign ys bs d
  | ys, [], _ => ys
  | [], _, _ => []

/-- `vesDataOperator AB rhoa typeofop` (lines 210-323): collapse repeated
`AB` spacings.  `X` is `np.unique(AB)` (sorted distinct values), `Y` the
resistivities at the first occurrence of each, and every duplicated
spacing's resistivity is replaced by the aggregate of all resistivities
collected at it.  Integer-dtype truncation of `np.zeros_like(dup_values)`
for integer inputs is not modelled (values are rationals throughout). -/
def vesDataOperator (AB rhoa : List ℚ) (op : VesOp) :
    Except WxErr (List ℚ × List ℚ) :=
  let op' : VesOp := match op with | .none => .mean | o => o
  if AB.length ≠ rhoa.length then .error .lengthMismatchVES
  else
    let dups := dupValues AB
    let X := sortedDedup AB
    let Y := X.map (fun v => rhoa.getD (firstIdx AB v) 0)
    let d0 := dups.map (aggDup op' AB rhoa)
    let maskr := X.map (fun v => decide (v ∈ dups))
    -- `Y[maskr] = d0` raises when the sizes disagree (some spacing occurs
    -- three or more times)
    if maskr.count true ≠ d0.length then .error .broadcastErr
    else .ok (X, maskAssign Y maskr d0)

/-! ### fitfunc (exmath.py lines 172-208) — CurveFitter -/

/-- External numeric black boxes used by the pipeline.  `polyfit` stands
for `np.poly1d(np.polyfit(x, y, deg))`, `quad` for
`scipy.integrate.quad(f, a, b)` (value and error estimate), and `sin45`
for the float `np.sin(np.deg2rad(45))` used as the basement-curve slope.
All theorems are quantified over every behaviour of these boxes. -/
structure NumOracle where
  polyfit : List ℚ → List ℚ → ℕ → (ℚ → ℚ)
  quad : (ℚ → ℚ) → ℚ → ℚ → ℚ × ℚ
  sin45 : ℚ

/-- `fitfunc x y deg sample` (lines 172-208): counts the strict local
extrema of `y` to pick the default degree, fits a polynomial
(`np.polyfit`, whose input validation — numpy `TypeError` for an empty
`x` or for `x` and `y` of different lengths, modelled from numpy's
documented behaviour — is the only failure point; a single point merely
emits a `RankWarning` and returns), and samples the fit on `sample`
evenly spaced points. -/
def fitfunc (oc : NumOracle) (x y : List ℚ) (deg : Option ℕ) (sample : ℕ) :
    Except WxErr ((ℚ → ℚ) × List ℚ × List ℚ) :=
  let degree := (argrelLess y).length + (argrelGreater y).length
  if x.length = 0 then .error .polyfitTypeErr
  else if x.length ≠ y.length then .error .polyfitTypeErr
  else
    let f := oc.polyfit x y (deg.getD (degree + 1))
    let xn := linspace (listMinQ x) (listMaxQ x) sample
    .ok (f, xn, xn.map f)

/-! ### ohmicArea (exmath.py lines 355-604) — OhmicAreaIntegrator -/

/-- The `ohmSkey` argument as supplied by the caller: Python `None`, a
number, or a string (modelled as its character list). -/
inductive OhmSkey where
  | none
  | num (q : ℚ)
  | str (cs : List Char)

/-- Digit run to a natural number. -/
def digitsToNat (cs : List Char) : ℕ :=
  cs.foldl (fun n c => 10 * n + (c.toNat - 48)) 0

/-- Python `float()` on an already lower-cased string.  Modelled from
Python's documented behaviour restricted to plain decimal literals
(optional sign, integer part, optional fractional part); anything else
fails, which the caller re-raises as the conversion error. -/
def parsePyFloat (cs : List Char) : Option ℚ :=
  let sb : ℚ × List Char :=
    match cs with
    | '-' :: r => (-1, r)
    | '+' :: r => (1, r)
    | r => (1, r)
  let ip := sb.2.takeWhile Char.isDigit
  let rest := sb.2.dropWhile Char.isDigit
  match rest with
  | [] => if ip.isEmpty then Option.none else some (sb.1 * digitsToNat ip)
  | '.' :: fp =>
      if fp.all Char.isDigit ∧ 0 < ip.length + fp.length then
        some (sb.1 * ((digitsToNat ip : ℚ) + (digitsToNat fp : ℚ) / (10 : ℚ) ^ fp.length))
      else Option.none
  | _ => Option.none

/-- Key-depth coercion of `ohmicArea` (lines 528-534):
`str(ohmSkey).lower().replace('m','')`, then the `'none'`-substring check
(defaulting the key to `X.max()/2`), then `float()`.  Any exception inside
the `try` — including the `X.max()` zero-size reduction on an empty
profile — is re-raised as the conversion `ValueError`.  For a numeric key
the string round-trip is the identity (`str` of a float contains no `m`
and never contains `none`). -/
def coerceOhmSkey (k : OhmSkey) (X : List ℚ) : Except WxErr ℚ :=
  match k with
  | .none => if X.isEmpty then .error .conversionErr else .ok (listMaxQ X / 2)
  | .num q => .ok q
  | .str cs =>
      let cs' := (cs.map Char.toLower).filter (fun c => c ≠ 'm')
      if List.IsInfix ['n','o','n','e'] cs' then
        if X.isEmpty then .error .conversionErr else .ok (listMaxQ X / 2)
      else
        match parsePyFloat cs' with
        | some q => .ok q
        | Option.none => .error .conversionErr

/-- Integration loop of `ohmicArea` (lines 580-585): adaptive quadrature
of `ff` over each root pair; a negative integral value is replaced by
zero, the error estimate is stored as returned. -/
def integrateLoop (quadf : (ℚ → ℚ) → ℚ → ℚ → ℚ × ℚ) (ff : ℚ → ℚ) :
    List (ℚ × ℚ) → List ℚ × List ℚ
  | [] => ([], [])
  | p :: rest =>
      let ve := quadf ff p.1 p.2
      let rs := integrateLoop quadf ff rest
      ((if ve.1 < 0 then 0 else ve.1) :: rs.1, ve.2 :: rs.2)

/-- Consecutive pairs of the root list (`np.split(roots, len//2)` and the
per-pair destructuring; the caller checks evenness first). -/
def toPairs : List ℚ → List (ℚ × ℚ)
  | a :: b :: rest => (a, b) :: toPairs rest
  | _ => []

/-- The try/except of `ohmicArea` lines 569-573: the recursive bound
finder on the index array with a fresh bound list; on any exception the
bound list is re-initialised and the iterative finder runs instead (whose
own exception propagates). -/
def boundsFallback (idxs : List ℤ) : Except WxErr (List ℤ) :=
  match (find_bound_for_integration idxs []).1 with
  | .ok b => .ok b
  | .error _ => (find_limit_for_integration idxs []).1

/-- `ohmicArea` lines 578-604: split the roots into consecutive pairs
(`np.split` fails unless the count is even and positive — unreachable
since the bound finders always append endpoint pairs), integrate each,
clamp negative areas to zero, optionally sum. -/
def ohmicIntegrate (oc : NumOracle) (ff : ℚ → ℚ) (roots : List ℚ) (sumb : Bool) :
    Except WxErr (List ℚ × List ℚ × List ℚ) :=
  if roots.length = 0 ∨ roots.length % 2 ≠ 0 then .error .splitErr
  else
    let res := integrateLoop oc.quad ff (toPairs roots)
    let areas := if sumb then [res.1.sum] else res.1
    .ok (areas, res.2, roots)

/-- `ohmicArea` lines 569-585 from the masked indices on: bound detection
with fallback, mapping of the bound indices back to depth coordinates
(`roots = xx[ib_indexes]`), local re-fit over the restricted sub-profile,
and integration of `f45 - f_rhotl`. -/
def ohmicFromIndices (oc : NumOracle) (f_rhotl : ℚ → ℚ) (oB Yo xx : List ℚ)
    (idxs : List ℤ) (sumb : Bool) : Except WxErr (List ℚ × List ℚ × List ℚ) := do
  let ib ← boundsFallback idxs
  let roots := ib.map (fun i => xx.getD i.toNat 0)
  let ft2 ← fitfunc oc oB Yo Option.none 1000
  ohmicIntegrate oc (fun t => ft2.1 t - f_rhotl t) roots sumb

/-- `ohmicArea` lines 540-567 after validation: global fit over the
reduced profile, restriction at the index nearest the key depth, basement
curve (`dummy_basement_curve`, lines 71-96: intercept `beta = f(ks)`,
slope `sin(45°)`), residual sampling on 1000 points, and the masked
index set (`masked_where(diff < 0).nonzero()`: indices whose residual is
neither masked nor zero, i.e. strictly positive). -/
def ohmicCore (oc : NumOracle) (X Y : List ℚ) (k : ℚ) (sumb : Bool) :
    Except WxErr (List ℚ × List ℚ × List ℚ) := do
  let ft ← fitfunc oc X Y Option.none 1000
  let f_rhotl := ft.1
  let oIx := npArgmin (X.map (fun v => |v - k|))
  let oB := X.drop oIx
  let beta := f_rhotl k
  let f_brl := fun t => oc.sin45 * t + beta
  let xx := linspace (listMinQ oB) (listMaxQ oB) 1000
  let diff_arr := xx.map (fun t => f_brl t - f_rhotl t)
  let idxs : List ℤ := ((List.range diff_arr.length).filter
      (fun i => decide (0 < diff_arr.getD i 0))).map (fun i => (i : ℤ))
  ohmicFromIndices oc f_rhotl oB (Y.drop oIx) xx idxs sumb

/-- `ohmicArea AB rhoa ohmSkey sum` (lines 355-604), for the default
computing objective: duplicate-spacing reduction (default operation),
key-depth coercion (lines 528-534), the `ohmSkey >= X.max()` validation
of line 536 (whose reduction itself raises on an empty profile), then the
fitting/integration pipeline.  The `objective` argument only blanks one
half of the returned pair and is not part of the computed triple. -/
def ohmicArea (oc : NumOracle) (AB rhoa : List ℚ) (key : OhmSkey) (sumb : Bool) :
    Except WxErr (List ℚ × List ℚ × List ℚ) := do
  let XY ← vesDataOperator AB rhoa .none
  let k ← coerceOhmSkey key XY.1
  if XY.1.isEmpty then throw .emptyReduceErr
  else if listMaxQ XY.1 ≤ k then throw .invalidKeyDepth
  else ohmicCore oc XY.1 XY.2 k sumb

/-- Areas component of an `ohmicArea` outcome (empty on error). -/
def areasOf : Except WxErr (List ℚ × List ℚ × List ℚ) → List ℚ
  | .ok t => t.1
  | .error _ => []

/-- Whether a run of an embedded function returned normally. -/
def exOk {α : Type} : Except WxErr α → Bool
  | .ok _ => true
  | .error _ => false

/-- A fixed trivial instantiation of the numeric black boxes, used to
exhibit concrete runs of the pipeline. -/
def oc0 : NumOracle :=
  ⟨fun _ _ _ => fun _ => 0, fun _ _ _ => (0, 0), 0⟩

/-! ## Theorems

### C2 — shape of the documented example zone -/

/-- Claim C2 counterexample: `shape` on the zone
`[60,70,65,40,30,31,34,40,38,50,61,90]` with the station defaulting to the
argmin does NOT return `U` (both end values exceed the median `45` and the
right side has exactly one strict local minimum, so the `H` branch fires
before `U` could; the documented `U` example belongs to the distinct
helper `get_shape`). -/
theorem claim_C2_counterexample :
    shape_ [60, 70, 65, 40, 30, 31, 34, 40, 38, 50, 61, 90] Option.none ≠
      .ok Shape.U := by
  with_unfolding_all decide

/-- Claim C2 (amended): `shape` on the zone
`[60,70,65,40,30,31,34,40,38,50,61,90]` with no station index (argmin
reference station, index 4) returns the shape `H`. -/
theorem claim_C2_amended :
    shape_ [60, 70, 65, 40, 30, 31, 34, 40, 38, 50, 61, 90] Option.none =
      .ok Shape.H := by
  with_unfolding_all decide

/-! ### C3 — behaviour of the bound finders on empty input -/

/-- Claim C3 counterexample: on the empty positions array neither
`find_bound_for_integration` nor `find_limit_for_integration` returns the
empty list — both fail. -/
theorem claim_C3_counterexample :
    (find_bound_for_integration [] []).1 ≠ .ok [] ∧
      (find_limit_for_integration [] []).1 ≠ .ok [] := by
  with_unfolding_all decide

/-- Claim C3 (amended): on the empty positions array both bound finders
raise the numpy zero-size-reduction `ValueError` (from `ix_arr.min()`),
for any state of the accumulator list; no empty bound list is returned. -/
theorem claim_C3_amended : ∀ b0 : List ℤ,
    (find_bound_for_integration [] b0).1 = .error .emptyReduceErr ∧
      (find_limit_for_integration [] b0).1 = .error .emptyReduceErr := by
  intro b0
  exact ⟨rfl, rfl⟩

/-! ### C4 — the shared mutable default accumulator -/

/-- `findBoundAux` only ever appends to the accumulator: running it on
`b0 ++ c` equals running it on `c` with `b0` prepended to both the result
and the final list state. -/
theorem findBoundAux_accum (fuel : ℕ) : ∀ ix b0 c : List ℤ,
    findBoundAux fuel ix (b0 ++ c) =
      ((findBoundAux fuel ix c).1.map (b0 ++ ·), b0 ++ (findBoundAux fuel ix c).2) := by
  induction fuel with
  | zero =>
      intro ix b0 c
      cases ix <;> simp [findBoundAux, Except.map]
  | succ fuel ih =>
      intro ix b0 c
      cases ix with
      | nil => simp [findBoundAux, Except.map]
      | cons x xs =>
          simp only [findBoundAux]
          cases hidx : (List.range (x :: xs).length).filter
              (fun i => decide ((x :: xs).getD i 0 = listMinI (x :: xs) + (i : ℤ))) with
          | nil => simp [Except.map]
          | cons j js =>
              simp only
              by_cases hrest : (x :: xs).drop (listMaxN (j :: js) + 1) = []
              · rw [if_pos hrest, if_pos hrest]
                simp [Except.map, List.append_assoc]
              · rw [if_neg hrest, if_neg hrest]
                rw [List.append_assoc]
                exact ih _ b0 _

/-- `findLimitAux` only ever appends to the accumulator, and the final
`s` and `oc` state components do not depend on it. -/
theorem findLimitAux_accum : ∀ (rest ix : List ℤ) (jj : ℕ) (s oc : ℤ) (b : List ℤ),
    findLimitAux ix jj s oc b rest =
      ((findLimitAux ix jj s oc [] rest).1, (findLimitAux ix jj s oc [] rest).2.1,
        b ++ (findLimitAux ix jj s oc [] rest).2.2) := by
  intro rest
  induction rest with
  | nil => intro ix jj s oc b; simp [findLimitAux]
  | cons v r ih =>
      intro ix jj s oc b
      simp only [findLimitAux, List.nil_append]
      by_cases hgap : v - s = 1
      · rw [if_neg (not_not_intro hgap), if_neg (not_not_intro hgap)]
        exact ih ix (jj + 1) v oc b
      · rw [if_pos hgap, if_pos hgap]
        rw [ih ix (jj + 1) v v (b ++ [oc, pyPrev ix jj]),
          ih ix (jj + 1) v v ([oc, pyPrev ix jj])]
        simp

/-- Claim C4 (amended): the bound finders are deterministic only when the
accumulator argument is passed explicitly.  When `b0` is left at its
default, the default list object is shared between calls; a successful
first call on `a` leaves its own result `r` in the default list, so an
identical second call returns `r ++ r` instead of `r`. -/
theorem claim_C4_amended :
    (∀ (a r : List ℤ), find_bound_for_integration a [] = (.ok r, r) →
      (find_bound_for_integration a r).1 = .ok (r ++ r)) ∧
    (∀ (a r : List ℤ), find_limit_for_integration a [] = (.ok r, r) →
      (find_limit_for_integration a r).1 = .ok (r ++ r)) := by
  constructor
  · intro a r h
    unfold find_bound_for_integration at h ⊢
    have hp := findBoundAux_accum a.length a r []
    rw [List.append_nil] at hp
    rw [hp, h]
    rfl
  · intro a r h
    cases a with
    | nil => simp [find_limit_for_integration] at h
    | cons x xs =>
        simp only [find_limit_for_integration] at h ⊢
        rw [findLimitAux_accum (x :: xs) (x :: xs) 0
            (listMinI (x :: xs) - 1) (listMinI (x :: xs)) r]
        rw [findLimitAux_accum (x :: xs) (x :: xs) 0
            (listMinI (x :: xs) - 1) (listMinI (x :: xs)) []] at h
        simp only [List.nil_append] at h
        have h1 := congrArg Prod.snd h
        simp only at h1
        rw [← h1]
        simp

/-- Claim C4 counterexample: two successive calls on the index array `[0]`
with the accumulator left at its shared default return different bound
lists (`[0,0]` then `[0,0,0,0]`), for the recursive finder and the
iterative one alike — the calls are not stateless. -/
theorem claim_C4_counterexample :
    ((find_bound_for_integration [0] []).1 ≠
      (find_bound_for_integration [0] (find_bound_for_integration [0] []).2).1) ∧
    ((find_limit_for_integration [0] []).1 ≠
      (find_limit_for_integration [0] (find_limit_for_integration [0] []).2).1) := by
  with_unfolding_all decide

/-- Claim C4 witness: the amended theorem at the concrete input `[0]`,
whose first default-accumulator call returns `[0, 0]`. -/
theorem claim_C4_witness :
    (find_bound_for_integration [0] [0, 0]).1 = .ok ([0, 0] ++ [0, 0]) ∧
    (find_limit_for_integration [0] [0, 0]).1 = .ok ([0, 0] ++ [0, 0]) :=
  ⟨claim_C4_amended.1 [0] [0, 0] (by with_unfolding_all decide),
   claim_C4_amended.2 [0] [0, 0] (by with_unfolding_all decide)⟩

/-! ### C7 — fitfunc error behaviour -/

/-- Claim C7 counterexample: `fitfunc` on the single matching point
`x = [0]`, `y = [5]` returns normally (numpy merely emits a
`RankWarning`), although the claim requires an `InsufficientData` failure
for `len(x) < 2`. -/
theorem claim_C7_counterexample :
    exOk (fitfunc oc0 [0] [5] Option.none 1000) = true := rfl

/-- Claim C7 (amended): `fitfunc` performs no validation of its own; it
returns normally exactly when `np.polyfit` accepts the data, i.e. when
`x` and `y` have equal lengths and `x` is nonempty.  A length mismatch or
an empty `x` fails inside `np.polyfit` (numpy `TypeError`); a single
matching point is accepted, so no `InsufficientData` error exists for
`len(x) = 1`. -/
theorem claim_C7_amended : ∀ (oc : NumOracle) (x y : List ℚ) (deg : Option ℕ) (sample : ℕ),
    exOk (fitfunc oc x y deg sample) = true ↔
      (x.length = y.length ∧ 1 ≤ x.length) := by
  intro oc x y deg sample
  unfold fitfunc
  by_cases h0 : x.length = 0
  · rw [if_pos h0]
    simp only [exOk, Bool.false_eq_true, false_iff]
    omega
  · rw [if_neg h0]
    by_cases hxy : x.length = y.length
    · rw [if_neg (not_not_intro hxy)]
      simp only [exOk, true_iff]
      omega
    · rw [if_pos hxy]
      simp only [exOk, Bool.false_eq_true, false_iff]
      omega

/-! ### C8 — duplicate-spacing reduction -/

/-- `np.unique` output is strictly increasing. -/
theorem sortedDedup_chain (AB : List ℚ) : List.Chain' (· < ·) (sortedDedup AB) := by
  have hs : List.Sorted (· ≤ ·) (List.insertionSort (· ≤ ·) AB) :=
    List.sorted_insertionSort _ AB
  have hsd : List.Pairwise (· ≤ ·) (sortedDedup AB) :=
    List.Pairwise.sublist (List.dedup_sublist _) hs
  have hnd : List.Pairwise (· ≠ ·) (sortedDedup AB) := List.nodup_dedup _
  rw [List.chain'_iff_pairwise]
  exact (hsd.and hnd).imp (fun h => lt_of_le_of_ne h.1 h.2)

/-- `np.unique` preserves membership. -/
theorem mem_sortedDedup (AB : List ℚ) (v : ℚ) : v ∈ sortedDedup AB ↔ v ∈ AB := by
  unfold sortedDedup
  rw [List.mem_dedup]
  exact (List.perm_insertionSort _ AB).mem_iff

/-- Positions where the boolean mask is `false` are untouched by the
masked assignment. -/
theorem maskAssign_getD_false : ∀ (ys : List ℚ) (bs : List Bool) (d : List ℚ) (i : ℕ),
    i < ys.length → bs.getD i false = false →
    (maskAssign ys bs d).getD i 0 = ys.getD i 0 := by
  intro ys
  induction ys with
  | nil =>
      intro bs d i h _
      simp at h
  | cons y ys ih =>
      intro bs d i hlen hb
      cases bs with
      | nil => simp [maskAssign]
      | cons b bs =>
          cases i with
          | zero =>
              have hbf : b = false := by simpa using hb
              simp [maskAssign, hbf]
          | succ i =>
              have hbs : bs.getD i false = false := by simpa using hb
              have hil : i < ys.length := by
                simpa using Nat.lt_of_succ_lt_succ hlen
              by_cases hbv : b = true
              · simp only [maskAssign, hbv, if_pos]
                simpa using ih bs d.tail i hil hbs
              · have hbf : b = false := by simpa using hbv
                simp only [maskAssign, hbf, Bool.false_eq_true, if_false]
                simpa using ih bs d i hil hbs

/-- Inversion of a successful `vesDataOperator` run: the positions are
`np.unique(AB)` and the resistivities are the first-occurrence values with
some aggregate list assigned at the duplicated positions. -/
theorem vesDataOperator_ok_inv {AB rhoa : List ℚ} {op : VesOp} {X Y : List ℚ}
    (h : vesDataOperator AB rhoa op = .ok (X, Y)) :
    X = sortedDedup AB ∧
      ∃ d0, Y = maskAssign
        ((sortedDedup AB).map (fun v => rhoa.getD (firstIdx AB v) 0))
        ((sortedDedup AB).map (fun v => decide (v ∈ dupValues AB))) d0 := by
  cases op <;>
    (simp only [vesDataOperator] at h
     split at h
     · exact absurd h (by simp)
     · split at h
       · exact absurd h (by simp)
       · simp only [Except.ok.injEq, Prod.mk.injEq] at h
         exact ⟨h.1.symm, _, h.2.symm⟩)

/-- Claim C8: `vesDataOperator` with the `mean` operation on positions
`[0,10,10,20]` and resistivities `[100,90,110,80]` returns positions
`[0,10,20]` and resistivities `[100,100,80]`; and in general, whenever it
returns, the output positions are the strictly increasing (sorted,
duplicate-free) original positions with unchanged membership, and every
non-duplicated position keeps the resistivity collected at its (unique)
occurrence. -/
theorem claim_C8 :
    vesDataOperator [0, 10, 10, 20] [100, 90, 110, 80] .mean =
      .ok ([0, 10, 20], [100, 100, 80])
  ∧ ∀ (AB rhoa : List ℚ) (op : VesOp) (X Y : List ℚ),
      vesDataOperator AB rhoa op = .ok (X, Y) →
      List.Chain' (· < ·) X
      ∧ (∀ v : ℚ, v ∈ X ↔ v ∈ AB)
      ∧ ∀ i : ℕ, i < X.length → X.getD i 0 ∉ dupValues AB →
          Y.getD i 0 = rhoa.getD (firstIdx AB (X.getD i 0)) 0 := by
  constructor
  · with_unfolding_all decide
  · intro AB rhoa op X Y h
    obtain ⟨hX, d0, hY⟩ := vesDataOperator_ok_inv h
    subst hX
    refine ⟨sortedDedup_chain AB, fun v => mem_sortedDedup AB v, ?_⟩
    intro i hi hnd
    have hgetX : (sortedDedup AB).getD i 0 = (sortedDedup AB)[i] :=
      List.getD_eq_getElem _ _ hi
    have hmask : ((sortedDedup AB).map
        (fun v => decide (v ∈ dupValues AB))).getD i false = false := by
      have hlen : i < ((sortedDedup AB).map
          (fun v => decide (v ∈ dupValues AB))).length := by
        simpa using hi
      rw [List.getD_eq_getElem _ _ hlen, List.getElem_map]
      simp only [decide_eq_false_iff_not]
      rw [← hgetX]
      exact hnd
    have hY0len : i < ((sortedDedup AB).map
        (fun v => rhoa.getD (firstIdx AB v) 0)).length := by simpa using hi
    rw [hY]
    rw [maskAssign_getD_false _ _ _ i (by simpa using hi) hmask]
    rw [List.getD_eq_getElem _ _ hY0len, List.getElem_map, ← hgetX]

/-- Claim C8 witness: the general guarantees instantiated at the scenario
input `AB = [0,10,10,20]`, `rhoa = [100,90,110,80]`, mode `mean`. -/
theorem claim_C8_witness :
    List.Chain' (· < ·) ([0, 10, 20] : List ℚ)
    ∧ (∀ v : ℚ, v ∈ ([0, 10, 20] : List ℚ) ↔ v ∈ ([0, 10, 10, 20] : List ℚ))
    ∧ ∀ i : ℕ, i < ([0, 10, 20] : List ℚ).length →
        ([0, 10, 20] : List ℚ).getD i 0 ∉ dupValues [0, 10, 10, 20] →
        ([100, 100, 80] : List ℚ).getD i 0 =
          ([100, 90, 110, 80] : List ℚ).getD
            (firstIdx [0, 10, 10, 20] (([0, 10, 20] : List ℚ).getD i 0)) 0 :=
  claim_C8.2 [0, 10, 10, 20] [100, 90, 110, 80] .mean [0, 10, 20] [100, 100, 80]
    (by with_unfolding_all decide)

/-! ### C1 — non-negative ohmic areas, unclamped errors -/

/-- Bind on `.ok` in the `Except` monad. -/
theorem except_bind_ok {α β : Type} (a : α) (f : α → Except WxErr β) :
    (Except.ok a : Except WxErr α) >>= f = f a := rfl

/-- Bind on `.error` in the `Except` monad. -/
theorem except_bind_err {α β : Type} (e : WxErr) (f : α → Except WxErr β) :
    (Except.error e : Except WxErr α) >>= f = .error e := rfl

/-- `throw` is `.error` in the `Except` monad. -/
theorem except_throw {α : Type} (e : WxErr) :
    (throw e : Except WxErr α) = .error e := rfl

/-- `pure` is `.ok` in the `Except` monad. -/
theorem except_pure {α : Type} (a : α) :
    (pure a : Except WxErr α) = .ok a := rfl

/-- Every area produced by the integration loop is non-negative: negative
quadrature values are replaced by zero. -/
theorem integrateLoop_nonneg (q : (ℚ → ℚ) → ℚ → ℚ → ℚ × ℚ) (ff : ℚ → ℚ) :
    ∀ ps, ((integrateLoop q ff ps).1).all (fun a => decide (0 ≤ a)) = true := by
  intro ps
  induction ps with
  | nil => rfl
  | cons p rest ih =>
      simp only [integrateLoop, List.all_cons, ih, Bool.and_true]
      by_cases hv : (q ff p.1 p.2).1 < 0
      · simp [hv]
      · simp only [hv, if_false]
        simpa using le_of_not_lt hv

/-- The integration-error estimates pass through the loop unclamped: the
second component is exactly the per-pair quadrature errors. -/
theorem integrateLoop_err (q : (ℚ → ℚ) → ℚ → ℚ → ℚ × ℚ) (ff : ℚ → ℚ) :
    ∀ ps, (integrateLoop q ff ps).2 = ps.map (fun p => (q ff p.1 p.2).2) := by
  intro ps
  induction ps with
  | nil => rfl
  | cons p rest ih => simp [integrateLoop, ih]

/-- Every area in an `ohmicIntegrate` outcome is non-negative. -/
theorem areasOf_ohmicIntegrate (oc : NumOracle) (ff : ℚ → ℚ) (roots : List ℚ)
    (sumb : Bool) :
    (areasOf (ohmicIntegrate oc ff roots sumb)).all (fun a => decide (0 ≤ a)) = true := by
  unfold ohmicIntegrate
  by_cases h : roots.length = 0 ∨ roots.length % 2 ≠ 0
  · rw [if_pos h]
    rfl
  · rw [if_neg h]
    cases sumb with
    | false => exact integrateLoop_nonneg oc.quad ff (toPairs roots)
    | true =>
        have hnn := integrateLoop_nonneg oc.quad ff (toPairs roots)
        rw [List.all_eq_true] at hnn
        show (List.all [(integrateLoop oc.quad ff (toPairs roots)).1.sum]
          fun a => decide (0 ≤ a)) = true
        simp only [List.all_cons, List.all_nil, Bool.and_true]
        refine decide_eq_true (List.sum_nonneg ?_)
        intro a ha
        exact of_decide_eq_true (hnn a ha)

/-- Every area in an `ohmicFromIndices` outcome is non-negative. -/
theorem areasOf_ohmicFromIndices (oc : NumOracle) (f_rhotl : ℚ → ℚ)
    (oB Yo xx : List ℚ) (idxs : List ℤ) (sumb : Bool) :
    (areasOf (ohmicFromIndices oc f_rhotl oB Yo xx idxs sumb)).all
      (fun a => decide (0 ≤ a)) = true := by
  unfold ohmicFromIndices
  cases h : boundsFallback idxs with
  | error e => rfl
  | ok ib =>
      simp only [except_bind_ok]
      cases h2 : fitfunc oc oB Yo Option.none 1000 with
      | error e => rfl
      | ok ft2 =>
          simp only [except_bind_ok]
          exact areasOf_ohmicIntegrate oc _ _ sumb

/-- Every area in an `ohmicCore` outcome is non-negative. -/
theorem areasOf_ohmicCore (oc : NumOracle) (X Y : List ℚ) (k : ℚ) (sumb : Bool) :
    (areasOf (ohmicCore oc X Y k sumb)).all (fun a => decide (0 ≤ a)) = true := by
  unfold ohmicCore
  cases h : fitfunc oc X Y Option.none 1000 with
  | error e => rfl
  | ok ft =>
      simp only [except_bind_ok]
      exact areasOf_ohmicFromIndices oc _ _ _ _ _ sumb

/-- Claim C1: whenever `ohmicArea` returns normally, every element of the
returned `areas` is ≥ 0 (a negative quadrature value is clamped to zero,
also after the optional summation), while the integration-error estimates
are returned exactly as the quadrature produced them, unclamped. -/
theorem claim_C1_nonneg_area :
    ∀ (oc : NumOracle) (AB rhoa : List ℚ) (key : OhmSkey) (sumb : Bool),
    ((areasOf (ohmicArea oc AB rhoa key sumb)).all (fun a => decide (0 ≤ a)) = true)
    ∧ ∀ (ff : ℚ → ℚ) (ps : List (ℚ × ℚ)),
        (integrateLoop oc.quad ff ps).2 = ps.map (fun p => (oc.quad ff p.1 p.2).2) := by
  intro oc AB rhoa key sumb
  refine ⟨?_, fun ff ps => integrateLoop_err oc.quad ff ps⟩
  unfold ohmicArea
  cases h1 : vesDataOperator AB rhoa .none with
  | error e => rfl
  | ok XY =>
      simp only [except_bind_ok]
      cases h2 : coerceOhmSkey key XY.1 with
      | error e => rfl
      | ok k =>
          simp only [except_bind_ok]
          by_cases hE : XY.1.isEmpty = true
          · rw [if_pos hE]
            rfl
          · rw [if_neg hE]
            by_cases hK : listMaxQ XY.1 ≤ k
            · rw [if_pos hK]
              rfl
            · rw [if_neg hK]
              exact areasOf_ohmicCore oc XY.1 XY.2 k sumb

/-! ### C6 / C10 — key-depth validation -/

/-- A max-fold over a list lands in the list (seeded by the head). -/
theorem foldl_max_mem (xs : List ℚ) : ∀ a : ℚ, xs.foldl max a ∈ a :: xs := by
  induction xs with
  | nil => intro a; simp
  | cons x xs ih =>
      intro a
      simp only [List.foldl_cons]
      have h := ih (max a x)
      rcases List.mem_cons.mp h with h1 | h1
      · rw [List.mem_cons]
        rcases max_choice a x with hm | hm
        · left
          rw [h1, hm]
        · right
          rw [List.mem_cons]
          left
          rw [h1, hm]
      · exact List.mem_cons_of_mem _ (List.mem_cons_of_mem _ h1)

/-- The seed of a max-fold bounds below the fold. -/
theorem le_foldl_max_self (xs : List ℚ) : ∀ a : ℚ, a ≤ xs.foldl max a := by
  induction xs with
  | nil => intro a; simp
  | cons x xs ih =>
      intro a
      exact le_trans (le_max_left a x) (ih (max a x))

/-- Every seed-or-element bounds below the max-fold. -/
theorem le_foldl_max (xs : List ℚ) : ∀ (a v : ℚ), v ∈ a :: xs → v ≤ xs.foldl max a := by
  induction xs with
  | nil =>
      intro a v hv
      simp at hv
      simp [hv]
  | cons x xs ih =>
      intro a v hv
      rcases List.mem_cons.mp hv with h1 | h1
      · subst h1
        exact le_trans (le_max_left v x) (le_foldl_max_self xs (max v x))
      · rcases List.mem_cons.mp h1 with h2 | h2
        · subst h2
          exact le_trans (le_max_right a v) (le_foldl_max_self xs (max a v))
        · exact ih (max a x) v (List.mem_cons_of_mem _ h2)

/-- `numpy.max` of a nonempty list is an element of it. -/
theorem listMaxQ_mem {l : List ℚ} (h : l ≠ []) : listMaxQ l ∈ l := by
  cases l with
  | nil => exact absurd rfl h
  | cons x xs => exact foldl_max_mem xs x

/-- Elements are bounded by `numpy.max`. -/
theorem le_listMaxQ {l : List ℚ} {v : ℚ} (h : v ∈ l) : v ≤ listMaxQ l := by
  cases l with
  | nil => simp at h
  | cons x xs => exact le_foldl_max xs x v h

/-- Two nonempty lists with the same members have the same `numpy.max`. -/
theorem listMaxQ_congr_mem {l₁ l₂ : List ℚ} (hm : ∀ v, v ∈ l₁ ↔ v ∈ l₂)
    (h₁ : l₁ ≠ []) (h₂ : l₂ ≠ []) : listMaxQ l₁ = listMaxQ l₂ :=
  le_antisymm (le_listMaxQ ((hm _).mp (listMaxQ_mem h₁)))
    (le_listMaxQ ((hm _).mpr (listMaxQ_mem h₂)))

/-- `np.unique` of a nonempty array is nonempty. -/
theorem sortedDedup_ne_nil {AB : List ℚ} (h : AB ≠ []) : sortedDedup AB ≠ [] := by
  cases AB with
  | nil => exact absurd rfl h
  | cons x xs =>
      intro hc
      have hx : x ∈ sortedDedup (x :: xs) := (mem_sortedDedup _ x).mpr (by simp)
      rw [hc] at hx
      simp at hx

/-- The iterative bound finder only ever fails with the zero-size
reduction error. -/
theorem find_limit_err {ix b0 : List ℤ} {e : WxErr}
    (h : (find_limit_for_integration ix b0).1 = .error e) : e = .emptyReduceErr := by
  cases ix with
  | nil =>
      simp only [find_limit_for_integration, Except.error.injEq] at h
      exact h.symm
  | cons x xs => simp [find_limit_for_integration] at h

/-- The bound-finder fallback chain only ever fails with the zero-size
reduction error (raised by the iterative fallback). -/
theorem boundsFallback_err {idxs : List ℤ} {e : WxErr}
    (h : boundsFallback idxs = .error e) : e = .emptyReduceErr := by
  unfold boundsFallback at h
  cases hb : (find_bound_for_integration idxs []).1 with
  | ok b => rw [hb] at h; simp at h
  | error e2 =>
      rw [hb] at h
      exact find_limit_err h

/-- `fitfunc` only ever fails with the numpy polyfit `TypeError`. -/
theorem fitfunc_err {oc : NumOracle} {x y : List ℚ} {deg : Option ℕ} {sample : ℕ}
    {e : WxErr} (h : fitfunc oc x y deg sample = .error e) : e = .polyfitTypeErr := by
  unfold fitfunc at h
  split at h
  · simp only [Except.error.injEq] at h
    exact h.symm
  · split at h
    · simp only [Except.error.injEq] at h
      exact h.symm
    · simp at h

/-- `ohmicIntegrate` only ever fails with the `np.split` error. -/
theorem ohmicIntegrate_err {oc : NumOracle} {ff : ℚ → ℚ} {roots : List ℚ}
    {sumb : Bool} {e : WxErr} (h : ohmicIntegrate oc ff roots sumb = .error e) :
    e = .splitErr := by
  unfold ohmicIntegrate at h
  split at h
  · simp only [Except.error.injEq] at h
    exact h.symm
  · simp at h

/-- Error inversion for the pipeline tail from the masked indices on. -/
theorem ohmicFromIndices_err {oc : NumOracle} {f_rhotl : ℚ → ℚ}
    {oB Yo xx : List ℚ} {idxs : List ℤ} {sumb : Bool} {e : WxErr}
    (h : ohmicFromIndices oc f_rhotl oB Yo xx idxs sumb = .error e) :
    e = .polyfitTypeErr ∨ e = .emptyReduceErr ∨ e = .splitErr := by
  unfold ohmicFromIndices at h
  cases h2 : boundsFallback idxs with
  | error e2 =>
      rw [h2, except_bind_err] at h
      simp only [Except.error.injEq] at h
      subst h
      exact Or.inr (Or.inl (boundsFallback_err h2))
  | ok ib =>
      rw [h2, except_bind_ok] at h
      cases h3 : fitfunc oc oB Yo Option.none 1000 with
      | error e3 =>
          rw [h3, except_bind_err] at h
          simp only [Except.error.injEq] at h
          subst h
          exact Or.inl (fitfunc_err h3)
      | ok ft2 =>
          rw [h3, except_bind_ok] at h
          exact Or.inr (Or.inr (ohmicIntegrate_err h))

/-- Error inversion for the post-validation pipeline: after the key-depth
check passes, the computation can only fail inside `np.polyfit`, on an
empty run-index array, or in `np.split` — never with the key-depth or
conversion errors. -/
theorem ohmicCore_err {oc : NumOracle} {X Y : List ℚ} {k : ℚ} {sumb : Bool}
    {e : WxErr} (h : ohmicCore oc X Y k sumb = .error e) :
    e = .polyfitTypeErr ∨ e = .emptyReduceErr ∨ e = .splitErr := by
  unfold ohmicCore at h
  cases h1 : fitfunc oc X Y Option.none 1000 with
  | error e1 =>
      rw [h1, except_bind_err] at h
      simp only [Except.error.injEq] at h
      subst h
      exact Or.inl (fitfunc_err h1)
  | ok ft =>
      rw [h1, except_bind_ok] at h
      exact ohmicFromIndices_err h

/-- Claim C6: for a dataset accepted by the duplicate-spacing reduction
and a numeric key depth, `ohmicArea` fails with the `InvalidKeyDepth`
`VESError` exactly when the key depth is ≥ the maximum position (the
boundary `ohmSkey = max` included); when it fails this way nothing past
the validation is computed, and no other stage can produce that error. -/
theorem claim_C6_key_depth :
    ∀ (oc : NumOracle) (AB rhoa : List ℚ) (q : ℚ) (sumb : Bool) (X Y : List ℚ),
    vesDataOperator AB rhoa .none = .ok (X, Y) → AB ≠ [] →
    (ohmicArea oc AB rhoa (.num q) sumb = .error .invalidKeyDepth ↔
      listMaxQ AB ≤ q) := by
  intro oc AB rhoa q sumb X Y h hne
  obtain ⟨hX, -⟩ := vesDataOperator_ok_inv h
  have hXne : X ≠ [] := hX ▸ sortedDedup_ne_nil hne
  have hmax : listMaxQ X = listMaxQ AB := by
    rw [hX]
    exact listMaxQ_congr_mem (mem_sortedDedup AB) (sortedDedup_ne_nil hne) hne
  unfold ohmicArea
  rw [h]
  simp only [except_bind_ok]
  show (coerceOhmSkey (.num q) X >>= fun k => _) = _ ↔ _
  simp only [coerceOhmSkey, except_bind_ok]
  have hEf : ¬(X.isEmpty = true) := by
    simpa [List.isEmpty_iff] using hXne
  rw [if_neg hEf]
  by_cases hK : listMaxQ X ≤ q
  · rw [if_pos hK]
    constructor
    · intro _
      rw [← hmax]
      exact hK
    · intro _
      rfl
  · rw [if_neg hK]
    constructor
    · intro hc
      rcases ohmicCore_err hc with h1 | h1 | h1 <;> cases h1
    · intro hc
      rw [← hmax] at hc
      exact absurd hc hK

/-- Claim C6 witness: the boundary case — positions `[0,1]` with key
depth `1 = max(positions)` fails with the key-depth error. -/
theorem claim_C6_witness :
    ohmicArea oc0 [0, 1] [1, 1] (.num 1) false = .error .invalidKeyDepth :=
  (claim_C6_key_depth oc0 [0, 1] [1, 1] 1 false [0, 1] [1, 1]
    (by with_unfolding_all decide) (by simp)).mpr (by with_unfolding_all decide)

/-- Claim C10: on a dataset accepted by the duplicate-spacing reduction
with non-negative positions, at least two of them distinct, calling
`ohmicArea` with `ohmSkey = None` raises neither the conversion error nor
the key-depth error: the stringified `'none'` is detected and the key
silently defaults to `max(positions)/2 < max(positions)`; likewise a
trailing `'m'` unit suffix on a string key is stripped before the float
coercion. -/
theorem claim_C10_none_key :
    ∀ (oc : NumOracle) (AB rhoa : List ℚ) (sumb : Bool) (X Y : List ℚ),
    vesDataOperator AB rhoa .none = .ok (X, Y) →
    (∀ v ∈ AB, 0 ≤ v) →
    (∃ a ∈ AB, ∃ b ∈ AB, a ≠ b) →
    ohmicArea oc AB rhoa .none sumb ≠ .error .conversionErr
    ∧ ohmicArea oc AB rhoa .none sumb ≠ .error .invalidKeyDepth
    ∧ coerceOhmSkey .none X = .ok (listMaxQ X / 2)
    ∧ ∀ cs : List Char,
        coerceOhmSkey (.str (cs ++ ['m'])) X = coerceOhmSkey (.str cs) X := by
  intro oc AB rhoa sumb X Y h hnn hex
  obtain ⟨a, ha, b, hb, hab⟩ := hex
  obtain ⟨hX, -⟩ := vesDataOperator_ok_inv h
  have hne : AB ≠ [] := by
    intro hc
    rw [hc] at ha
    simp at ha
  have hXne : X ≠ [] := hX ▸ sortedDedup_ne_nil hne
  have hEf : ¬(X.isEmpty = true) := by
    simpa [List.isEmpty_iff] using hXne
  have haX : a ∈ X := hX ▸ (mem_sortedDedup AB a).mpr ha
  have hbX : b ∈ X := hX ▸ (mem_sortedDedup AB b).mpr hb
  have hpos : 0 < listMaxQ X := by
    by_contra hle
    push_neg at hle
    have h1 : a = 0 := le_antisymm (le_trans (le_listMaxQ haX) hle) (hnn a ha)
    have h2 : b = 0 := le_antisymm (le_trans (le_listMaxQ hbX) hle) (hnn b hb)
    exact hab (h1.trans h2.symm)
  have hco : coerceOhmSkey .none X = .ok (listMaxQ X / 2) := by
    simp only [coerceOhmSkey]
    rw [if_neg hEf]
  have hK : ¬(listMaxQ X ≤ listMaxQ X / 2) :=
    not_le.mpr (half_lt_self hpos)
  have hrun : ohmicArea oc AB rhoa .none sumb = ohmicCore oc X Y (listMaxQ X / 2) sumb := by
    unfold ohmicArea
    rw [h]
    simp only [except_bind_ok]
    rw [hco]
    simp only [except_bind_ok]
    rw [if_neg hEf, if_neg hK]
  refine ⟨?_, ?_, hco, ?_⟩
  · rw [hrun]
    intro hc
    rcases ohmicCore_err hc with h1 | h1 | h1 <;> cases h1
  · rw [hrun]
    intro hc
    rcases ohmicCore_err hc with h1 | h1 | h1 <;> cases h1
  · intro cs
    simp only [coerceOhmSkey]
    have hfil : ((cs ++ ['m']).map Char.toLower).filter (fun c => decide ¬(c = 'm')) =
        (cs.map Char.toLower).filter (fun c => decide ¬(c = 'm')) := by
      rw [List.map_append, List.filter_append]
      simp
    rw [hfil]

/-- Claim C10 witness: the guarantees at the concrete two-point dataset
`AB = [0,10]`, `rhoa = [5,5]` with `ohmSkey = None`. -/
theorem claim_C10_witness :
    ohmicArea oc0 [0, 10] [5, 5] .none false ≠ .error .conversionErr
    ∧ ohmicArea oc0 [0, 10] [5, 5] .none false ≠ .error .invalidKeyDepth
    ∧ coerceOhmSkey .none [0, 10] = .ok (listMaxQ [0, 10] / 2)
    ∧ ∀ cs : List Char,
        coerceOhmSkey (.str (cs ++ ['m'])) [0, 10] = coerceOhmSkey (.str cs) [0, 10] :=
  claim_C10_none_key oc0 [0, 10] [5, 5] false [0, 10] [5, 5]
    (by with_unfolding_all decide)
    (by intro v hv; rcases List.mem_cons.mp hv with h | h
        · rw [h]
        · simp only [List.mem_singleton] at h
          rw [h]
          norm_num)
    ⟨0, by simp, 10, by simp, by norm_num⟩

/-! ### C9 — shape invariance under positive rescaling -/

/-- `getD` with default `0` commutes with multiplication by a scalar. -/
theorem getD_map_mul (k : ℚ) (l : List ℚ) (n : ℕ) :
    (l.map (fun v => k * v)).getD n 0 = k * l.getD n 0 := by
  have h := List.getD_map l 0 (fun v => k * v) (n := n)
  simpa using h

/-- Strict local minima are preserved by positive rescaling. -/
theorem isLocalMin_map_mul {k : ℚ} (hk : 0 < k) (y : List ℚ) (i : ℕ) :
    isLocalMin (y.map (fun v => k * v)) i = isLocalMin y i := by
  unfold isLocalMin
  rw [List.length_map, getD_map_mul, getD_map_mul, getD_map_mul,
    decide_eq_decide.mpr (mul_lt_mul_left hk),
    decide_eq_decide.mpr (mul_lt_mul_left hk)]

/-- Strict local maxima are preserved by positive rescaling. -/
theorem isLocalMax_map_mul {k : ℚ} (hk : 0 < k) (y : List ℚ) (i : ℕ) :
    isLocalMax (y.map (fun v => k * v)) i = isLocalMax y i := by
  unfold isLocalMax
  rw [List.length_map, getD_map_mul, getD_map_mul, getD_map_mul,
    decide_eq_decide.mpr (mul_lt_mul_left hk),
    decide_eq_decide.mpr (mul_lt_mul_left hk)]

/-- `argrelextrema(.., np.less)` is invariant under positive rescaling. -/
theorem argrelLess_map_mul {k : ℚ} (hk : 0 < k) (y : List ℚ) :
    argrelLess (y.map (fun v => k * v)) = argrelLess y := by
  unfold argrelLess
  rw [List.length_map]
  exact List.filter_congr (fun i _ => isLocalMin_map_mul hk y i)

/-- `argrelextrema(.., np.greater)` is invariant under positive rescaling. -/
theorem argrelGreater_map_mul {k : ℚ} (hk : 0 < k) (y : List ℚ) :
    argrelGreater (y.map (fun v => k * v)) = argrelGreater y := by
  unfold argrelGreater
  rw [List.length_map]
  exact List.filter_congr (fun i _ => isLocalMax_map_mul hk y i)

/-- Sorting commutes with positive rescaling. -/
theorem insertionSort_map_mul {k : ℚ} (hk : 0 < k) (l : List ℚ) :
    List.insertionSort (· ≤ ·) (l.map (fun v => k * v)) =
      (List.insertionSort (· ≤ ·) l).map (fun v => k * v) := by
  haveI : IsAntisymm ℚ (fun x1 x2 : ℚ => x1 ≤ x2) :=
    ⟨fun _ _ h1 h2 => le_antisymm h1 h2⟩
  refine List.eq_of_perm_of_sorted (r := (· ≤ ·)) ?_ ?_ ?_
  · exact (List.perm_insertionSort _ _).trans
      ((List.perm_insertionSort (· ≤ ·) l).symm.map _)
  · exact List.sorted_insertionSort _ _
  · exact List.Pairwise.map _
      (fun a b hab => mul_le_mul_of_nonneg_left hab hk.le)
      (List.sorted_insertionSort _ l)

/-- `np.median` scales with a positive scalar. -/
theorem npMedian_map_mul {k : ℚ} (hk : 0 < k) (l : List ℚ) :
    npMedian (l.map (fun v => k * v)) = k * npMedian l := by
  simp only [npMedian]
  rw [List.length_map, insertionSort_map_mul hk, getD_map_mul, getD_map_mul]
  by_cases hodd : l.length % 2 = 1
  · rw [if_pos hodd, if_pos hodd]
  · rw [if_neg hodd, if_neg hodd]
    ring

/-- The argmin scan is invariant under positive rescaling (ties keep the
first index in both runs). -/
theorem argminAux_map_mul {k : ℚ} (hk : 0 < k) :
    ∀ (l : List ℚ) (bi : ℕ) (bv : ℚ) (i : ℕ),
    argminAux bi (k * bv) i (l.map (fun v => k * v)) =
      ((argminAux bi bv i l).1, k * (argminAux bi bv i l).2) := by
  intro l
  induction l with
  | nil => intro bi bv i; rfl
  | cons v rest ih =>
      intro bi bv i
      simp only [List.map_cons, argminAux]
      by_cases hc : v < bv
      · rw [if_pos ((mul_lt_mul_left hk).mpr hc), if_pos hc]
        exact ih i v (i + 1)
      · rw [if_neg (fun hcc => hc ((mul_lt_mul_left hk).mp hcc)), if_neg hc]
        exact ih bi bv (i + 1)

/-- `np.argmin` is invariant under positive rescaling. -/
theorem npArgmin_map_mul {k : ℚ} (hk : 0 < k) (l : List ℚ) :
    npArgmin (l.map (fun v => k * v)) = npArgmin l := by
  cases l with
  | nil => rfl
  | cons x xs =>
      show (argminAux 0 (k * x) 1 (xs.map (fun v => k * v))).1 =
        (argminAux 0 x 1 xs).1
      rw [argminAux_map_mul hk]

/-- `headD 0` commutes with rescaling. -/
theorem headD_map_mul (k : ℚ) (l : List ℚ) :
    (l.map (fun v => k * v)).headD 0 = k * l.headD 0 := by
  cases l <;> simp

/-- `getLastD` commutes with rescaling (generalised default). -/
theorem getLastD_map_mul (k : ℚ) : ∀ (l : List ℚ) (d : ℚ),
    (l.map (fun v => k * v)).getLastD (k * d) = k * l.getLastD d := by
  intro l
  induction l with
  | nil => intro d; rfl
  | cons x xs ih =>
      intro d
      simp only [List.map_cons, List.getLastD_cons]
      exact ih x

/-- `getLastD 0` commutes with rescaling. -/
theorem getLastD_map_mul0 (k : ℚ) (l : List ℚ) :
    (l.map (fun v => k * v)).getLastD 0 = k * l.getLastD 0 := by
  have h := getLastD_map_mul k l 0
  rwa [mul_zero] at h

/-- Python `and` on numbers commutes with nonzero rescaling. -/
theorem pyAnd_map_mul {k : ℚ} (hk : k ≠ 0) (a b : ℚ) :
    pyAnd (k * a) (k * b) = k * pyAnd a b := by
  unfold pyAnd
  by_cases ha : a = 0
  · rw [if_pos (by rw [ha, mul_zero]), if_pos ha]
  · rw [if_neg (fun hc => ha ((mul_eq_zero.mp hc).resolve_left hk)), if_neg ha]

/-- The shape decision table only compares rescaling-covariant
quantities, so the computed shape is unchanged by positive rescaling. -/
theorem shapeCore_map_mul {k : ℚ} (hk : 0 < k) (cz : List ℚ) (i : ℕ) :
    shapeCore (cz.map (fun v => k * v)) i = shapeCore cz i := by
  simp only [shapeCore, List.length_map]
  by_cases hlen : cz.length ≤ i
  · rw [if_pos hlen, if_pos hlen]
  · rw [if_neg hlen, if_neg hlen]
    rw [← List.map_take, ← List.map_drop,
      argrelLess_map_mul hk, argrelLess_map_mul hk,
      argrelGreater_map_mul hk, argrelGreater_map_mul hk,
      headD_map_mul, getLastD_map_mul0, npMedian_map_mul hk,
      pyAnd_map_mul hk.ne']
    simp only [mul_le_mul_left hk, mul_lt_mul_left hk]

/-- Claim C9: `shape` returns the same value on `k * cz` as on `cz` for
every positive scalar `k`, with the station resolved the same way in both
runs (either the same explicit index, or the argmin in both). -/
theorem claim_C9_scale_invariance :
    ∀ (k : ℚ) (cz : List ℚ) (s : Option ℕ), 0 < k →
    shape_ (cz.map (fun v => k * v)) s = shape_ cz s := by
  intro k cz s hk
  cases s with
  | some i => exact shapeCore_map_mul hk cz i
  | none =>
      cases cz with
      | nil => rfl
      | cons x xs =>
          show shapeCore ((x :: xs).map (fun v => k * v))
              (npArgmin ((x :: xs).map (fun v => k * v))) =
            shapeCore (x :: xs) (npArgmin (x :: xs))
          rw [npArgmin_map_mul hk]
          exact shapeCore_map_mul hk (x :: xs) (npArgmin (x :: xs))

/-- Claim C9 witness: rescaling the documented example zone by `2` leaves
the computed shape unchanged. -/
theorem claim_C9_witness :
    shape_ (([60, 70, 65, 40, 30, 31, 34, 40, 38, 50, 61, 90] : List ℚ).map
      (fun v => 2 * v)) Option.none =
      shape_ [60, 70, 65, 40, 30, 31, 34, 40, 38, 50, 61, 90] Option.none :=
  claim_C9_scale_invariance 2 [60, 70, 65, 40, 30, 31, 34, 40, 38, 50, 61, 90]
    Option.none (by norm_num)

/-! ### C5 — equivalence of the two bound finders on well-formed input -/

/-- A min-fold stays at its seed when the seed bounds the list below. -/
theorem foldl_min_of_le (xs : List ℤ) : ∀ a : ℤ, (∀ v ∈ xs, a ≤ v) →
    xs.foldl min a = a := by
  induction xs with
  | nil => intro a _; rfl
  | cons x xs ih =>
      intro a h
      simp only [List.foldl_cons]
      have hax : a ≤ x := h x (by simp)
      rw [min_eq_left hax]
      exact ih a (fun v hv => h v (List.mem_cons_of_mem _ hv))

/-- On a strictly increasing list the head is the minimum. -/
theorem listMinI_chain_head {x : ℤ} {xs : List ℤ}
    (h : List.Chain' (· < ·) (x :: xs)) : listMinI (x :: xs) = x := by
  have hp : List.Pairwise (· < ·) (x :: xs) := List.chain'_iff_pairwise.mp h
  have hall : ∀ v ∈ xs, x ≤ v :=
    fun v hv => le_of_lt ((List.pairwise_cons.mp hp).1 v hv)
  exact foldl_min_of_le xs x hall

/-- Run decomposition of the reference bound list: the scan closes the
maximal run of consecutive successors and continues on the remainder. -/
theorem runBoundsAux_runLen : ∀ (l : List ℤ) (oc p : ℤ),
    runBoundsAux oc p l = [oc, p + (runLen p l : ℤ)] ++ runBounds (l.drop (runLen p l)) := by
  intro l
  induction l with
  | nil =>
      intro oc p
      simp [runBoundsAux, runLen, runBounds]
  | cons v rest ih =>
      intro oc p
      by_cases hv : v = p + 1
      · simp only [runBoundsAux, runLen, if_pos hv]
        rw [ih oc v]
        have hc : p + ((runLen v rest : ℤ) + 1) = v + (runLen v rest : ℤ) := by
          rw [hv]; ring
        push_cast
        rw [hc, List.drop_succ_cons]
      · simp only [runBoundsAux, runLen, if_neg hv]
        simp [runBounds]

/-- Adjacent elements of a strictly increasing integer list grow by at
least one. -/
theorem chain_getD_succ : ∀ (l : List ℤ), List.Chain' (· < ·) l →
    ∀ j : ℕ, j + 1 < l.length → l.getD j 0 + 1 ≤ l.getD (j + 1) 0 := by
  intro l
  induction l with
  | nil => intro _ j hj; simp at hj
  | cons a rest ih =>
      intro hch j hj
      cases rest with
      | nil => simp at hj
      | cons b t =>
          obtain ⟨hab, hch'⟩ := List.chain'_cons.mp hch
          cases j with
          | zero =>
              simp only [List.getD_cons_zero, List.getD_cons_succ]
              omega
          | succ j =>
              simp only [List.getD_cons_succ]
              exact ih hch' j (by simpa using hj)

/-- Distant elements of a strictly increasing integer list grow at least
linearly. -/
theorem chain_getD_add (l : List ℤ) (hch : List.Chain' (· < ·) l) :
    ∀ (d i : ℕ), i + d < l.length → l.getD i 0 + d ≤ l.getD (i + d) 0 := by
  intro d
  induction d with
  | zero => intro i _; simp
  | succ d ihd =>
      intro i hid
      have h1 : l.getD i 0 + d ≤ l.getD (i + d) 0 := ihd i (by omega)
      have h2 : l.getD (i + d) 0 + 1 ≤ l.getD (i + d + 1) 0 :=
        chain_getD_succ l hch (i + d) (by omega)
      have : i + (d + 1) = i + d + 1 := by omega
      rw [this]
      push_cast
      omega

/-- Values inside the initial consecutive run. -/
theorem runLen_getD : ∀ (l : List ℤ) (p : ℤ) (j : ℕ), j < runLen p l →
    l.getD j 0 = p + 1 + j := by
  intro l
  induction l with
  | nil => intro p j hj; simp [runLen] at hj
  | cons v rest ih =>
      intro p j hj
      by_cases hv : v = p + 1
      · rw [runLen, if_pos hv] at hj
        cases j with
        | zero => simpa using hv
        | succ j =>
            simp only [List.getD_cons_succ]
            have := ih v j (by omega)
            rw [this, hv]
            push_cast
            ring
      · rw [runLen, if_neg hv] at hj
        simp at hj

/-- The element right after the initial run (when it exists) breaks the
consecutive pattern. -/
theorem runLen_break : ∀ (l : List ℤ) (p : ℤ), runLen p l < l.length →
    l.getD (runLen p l) 0 ≠ p + 1 + (runLen p l : ℤ) := by
  intro l
  induction l with
  | nil => intro p h; simp at h
  | cons v rest ih =>
      intro p h
      by_cases hv : v = p + 1
      · rw [runLen, if_pos hv] at h ⊢
        simp only [List.getD_cons_succ]
        have := ih v (by simpa using h)
        intro hc
        apply this
        rw [hc, hv]
        push_cast
        ring
      · rw [runLen, if_neg hv] at h ⊢
        simpa using hv

/-- The initial run cannot outgrow the list. -/
theorem runLen_le_length : ∀ (l : List ℤ) (p : ℤ), runLen p l ≤ l.length := by
  intro l
  induction l with
  | nil => intro p; simp [runLen]
  | cons v rest ih =>
      intro p
      by_cases hv : v = p + 1
      · rw [runLen, if_pos hv]
        simpa using ih v
      · rw [runLen, if_neg hv]
        simp

/-- A filter over `range n` whose predicate holds exactly below `m` is
`range m`. -/
theorem filter_range_eq_range : ∀ (n m : ℕ) (p : ℕ → Bool), m ≤ n →
    (∀ i, i < n → (p i = true ↔ i < m)) →
    (List.range n).filter p = List.range m := by
  intro n
  induction n with
  | zero =>
      intro m p hm _
      interval_cases m
      rfl
  | succ n ihn =>
      intro m p hm hp
      rw [List.range_succ, List.filter_append]
      by_cases hmn : m = n + 1
      · subst hmn
        have h1 : (List.range n).filter p = List.range n := by
          have := ihn n p le_rfl (fun i hi => by
            constructor
            · intro _; exact hi
            · intro _; exact (hp i (by omega)).mpr (by omega))
          exact this
        have h2 : [n].filter p = [n] := by
          have hpn : p n = true := (hp n (by omega)).mpr (by omega)
          simp [List.filter, hpn]
        rw [h1, h2, ← List.range_succ]
      · have hm' : m ≤ n := by omega
        have h1 : (List.range n).filter p = List.range m :=
          ihn m p hm' (fun i hi => hp i (by omega))
        have hpn : p n = false := by
          by_contra hc
          have : p n = true := by
            cases hcc : p n
            · exact absurd hcc hc
            · rfl
          have := (hp n (by omega)).mp this
          omega
        have h2 : [n].filter p = [] := by
          simp [List.filter, hpn]
        rw [h1, h2, List.append_nil]

/-- Min of a cons whose head bounds the tail below. -/
theorem listMinI_cons_of_le {a : ℤ} {xs : List ℤ} (h : ∀ v ∈ xs, a ≤ v) :
    listMinI (a :: xs) = a :=
  foldl_min_of_le xs a h

/-- Min of the value run `[x, x+1, …, x+r]`. -/
theorem listMinI_add_range (x : ℤ) (r : ℕ) :
    listMinI ((List.range (r + 1)).map (fun (i : ℕ) => x + (i : ℤ))) = x := by
  rw [List.range_succ_eq_map, List.map_cons]
  have h0 : x + ((0 : ℕ) : ℤ) = x := by push_cast; ring
  rw [h0]
  apply listMinI_cons_of_le
  intro v hv
  simp only [List.map_map, List.mem_map] at hv
  obtain ⟨i, -, hi⟩ := hv
  rw [← hi]
  simp only [Function.comp]
  push_cast
  omega

/-- Max of an append with a singleton. -/
theorem listMaxI_append_singleton : ∀ (l : List ℤ) (v : ℤ), l ≠ [] →
    listMaxI (l ++ [v]) = max (listMaxI l) v := by
  intro l v h
  cases l with
  | nil => exact absurd rfl h
  | cons a ys =>
      show List.foldl max a (ys ++ [v]) = max (List.foldl max a ys) v
      rw [List.foldl_append]
      rfl

/-- Max of the value run `[x, x+1, …, x+r]`. -/
theorem listMaxI_add_range (x : ℤ) : ∀ r : ℕ,
    listMaxI ((List.range (r + 1)).map (fun (i : ℕ) => x + (i : ℤ))) = x + r := by
  intro r
  induction r with
  | zero =>
      show listMaxI [x + ((0 : ℕ) : ℤ)] = x + ((0 : ℕ) : ℤ)
      rfl
  | succ r ih =>
      rw [List.range_succ, List.map_append]
      simp only [List.map_cons, List.map_nil]
      rw [listMaxI_append_singleton _ _ (by simp)]
      rw [ih]
      show max (x + (r : ℤ)) (x + ((r + 1 : ℕ) : ℤ)) = x + ((r + 1 : ℕ) : ℤ)
      rw [max_eq_right (by push_cast; omega)]

/-- Max of the index run `range (n+1)`. -/
theorem listMaxN_range_succ : ∀ n : ℕ, listMaxN (List.range (n + 1)) = n := by
  intro n
  induction n with
  | zero => rfl
  | succ n ih =>
      unfold listMaxN at ih ⊢
      rw [List.range_succ, List.foldl_append]
      show max (List.foldl max 0 (List.range (n + 1))) (n + 1) = n + 1
      rw [ih]
      omega

/-- Values at positions inside (or at the end of) the initial run. -/
theorem run_getD_cons {x : ℤ} {xs : List ℤ} :
    ∀ i : ℕ, i ≤ runLen x xs → (x :: xs).getD i 0 = x + (i : ℤ) := by
  intro i hi
  cases i with
  | zero => simp
  | succ j =>
      rw [List.getD_cons_succ, runLen_getD xs x j (by omega)]
      push_cast
      ring

/-- Beyond the initial run a strictly increasing list exceeds the
arithmetic progression. -/
theorem chain_beyond_getD {x : ℤ} {xs : List ℤ}
    (hch : List.Chain' (· < ·) (x :: xs)) :
    ∀ i : ℕ, runLen x xs < i → i < (x :: xs).length →
    x + (i : ℤ) < (x :: xs).getD i 0 := by
  intro i hri hil
  have hrlen : runLen x xs + 1 < (x :: xs).length := by omega
  have hrx : (x :: xs).getD (runLen x xs) 0 = x + (runLen x xs : ℤ) :=
    run_getD_cons (runLen x xs) le_rfl
  have hstep : (x :: xs).getD (runLen x xs) 0 + 1 ≤
      (x :: xs).getD (runLen x xs + 1) 0 :=
    chain_getD_succ _ hch (runLen x xs) hrlen
  have hbreak : (x :: xs).getD (runLen x xs + 1) 0 ≠ x + 1 + (runLen x xs : ℤ) := by
    rw [List.getD_cons_succ]
    exact runLen_break xs x (by simpa using hrlen)
  obtain ⟨d, rfl⟩ : ∃ d, i = (runLen x xs + 1) + d := ⟨i - (runLen x xs + 1), by omega⟩
  have hadd : (x :: xs).getD (runLen x xs + 1) 0 + (d : ℤ) ≤
      (x :: xs).getD (runLen x xs + 1 + d) 0 :=
    chain_getD_add _ hch d (runLen x xs + 1) (by omega)
  push_cast
  push_cast at hrx hstep hbreak hadd
  omega

/-- On a strictly increasing list the zero residuals of
`ix_arr - arange(min, len+min)` are exactly the indices of the initial
consecutive run. -/
theorem chain_filter_eq_range {x : ℤ} {xs : List ℤ}
    (hch : List.Chain' (· < ·) (x :: xs)) :
    (List.range (x :: xs).length).filter
      (fun i => decide ((x :: xs).getD i 0 = x + (i : ℤ))) =
      List.range (runLen x xs + 1) := by
  apply filter_range_eq_range
  · have := runLen_le_length xs x
    simp only [List.length_cons]
    omega
  · intro i hi
    rw [decide_eq_true_eq]
    constructor
    · intro hgd
      by_contra hlt
      push_neg at hlt
      have := chain_beyond_getD hch i (by omega) hi
      omega
    · intro hlt
      exact run_getD_cons i (by omega)

/-- Strict increase passes to sublists. -/
theorem chain'_of_sublist {l₁ l₂ : List ℤ} (hs : l₁.Sublist l₂)
    (h : List.Chain' (· < ·) l₂) : List.Chain' (· < ·) l₁ := by
  rw [List.chain'_iff_pairwise] at h ⊢
  exact List.Pairwise.sublist hs h

/-- The recursive bound finder on a nonempty strictly increasing index
array (with enough fuel) appends exactly the run endpoints. -/
theorem findBoundAux_runs : ∀ (fuel : ℕ) (ix b0 : List ℤ), ix ≠ [] →
    List.Chain' (· < ·) ix → ix.length ≤ fuel →
    findBoundAux fuel ix b0 = (.ok (b0 ++ runBounds ix), b0 ++ runBounds ix) := by
  intro fuel
  induction fuel with
  | zero =>
      intro ix b0 hne hch hlen
      cases ix with
      | nil => exact absurd rfl hne
      | cons x xs => simp at hlen
  | succ fuel ih =>
      intro ix b0 hne hch hlen
      cases ix with
      | nil => exact absurd rfl hne
      | cons x xs =>
          simp only [findBoundAux]
          rw [listMinI_chain_head hch, chain_filter_eq_range hch]
          split
          · rename_i heq
            exact absurd heq (by simp)
          · rename_i n ns heq
            have hvals : (List.range (runLen x xs + 1)).map
                (fun i => (x :: xs).getD i 0) =
                (List.range (runLen x xs + 1)).map (fun (i : ℕ) => x + (i : ℤ)) :=
              List.map_congr_left (fun i hi =>
                run_getD_cons i (by
                  have := List.mem_range.mp hi
                  omega))
            rw [hvals, listMinI_add_range, listMaxI_add_range, listMaxN_range_succ,
              List.drop_succ_cons]
            have hrb : runBounds (x :: xs) =
                [x, x + (runLen x xs : ℤ)] ++ runBounds (xs.drop (runLen x xs)) := by
              show runBoundsAux x x xs = _
              rw [runBoundsAux_runLen xs x x]
            by_cases hrest : xs.drop (runLen x xs) = []
            · rw [if_pos hrest]
              rw [hrb, hrest]
              show _ = (Except.ok (b0 ++ ([x, x + (runLen x xs : ℤ)] ++ runBounds [])), _)
              simp [runBounds]
            · rw [if_neg hrest]
              have hch' : List.Chain' (· < ·) (xs.drop (runLen x xs)) :=
                chain'_of_sublist
                  ((List.drop_sublist _ xs).trans (List.sublist_cons_self x xs)) hch
              have hlen' : (xs.drop (runLen x xs)).length ≤ fuel := by
                rw [List.length_drop]
                simp only [List.length_cons] at hlen
                omega
              rw [ih (xs.drop (runLen x xs)) (b0 ++ [x, x + (runLen x xs : ℤ)])
                hrest hch' hlen']
              rw [hrb]
              simp [List.append_assoc]

/-- Reading the head and tail of a `drop`. -/
theorem drop_cons_inv : ∀ (ix : List ℤ) (jj : ℕ) (v : ℤ) (rest' : List ℤ),
    ix.drop jj = v :: rest' → ix.getD jj 0 = v ∧ ix.drop (jj + 1) = rest' := by
  intro ix
  induction ix with
  | nil =>
      intro jj v rest' h
      rw [List.drop_nil] at h
      cases h
  | cons a ix' ih =>
      intro jj v rest' h
      cases jj with
      | zero =>
          simp only [List.drop_zero] at h
          cases h
          exact ⟨List.getD_cons_zero, by rw [List.drop_succ_cons, List.drop_zero]⟩
      | succ jj =>
          rw [List.drop_succ_cons] at h
          obtain ⟨h1, h2⟩ := ih jj v rest' h
          constructor
          · rw [List.getD_cons_succ]
            exact h1
          · rw [List.drop_succ_cons]
            exact h2

/-- The iterative loop from position `jj ≥ 1` (with the invariant that
`s` holds the previous element and the remaining elements are
`ix.drop jj`) closes exactly the reference run bounds. -/
theorem findLimitAux_runs : ∀ (rest ix : List ℤ) (jj : ℕ) (s oc : ℤ) (b : List ℤ),
    1 ≤ jj → ix.getD (jj - 1) 0 = s → rest = ix.drop jj →
    (findLimitAux ix jj s oc b rest).2.2 ++
      [(findLimitAux ix jj s oc b rest).2.1, rest.getLastD s] =
    b ++ runBoundsAux oc s rest := by
  intro rest
  induction rest with
  | nil =>
      intro ix jj s oc b _ _ _
      simp [findLimitAux, runBoundsAux]
  | cons v rest' ih =>
      intro ix jj s oc b hjj hprev hdrop
      obtain ⟨hv, hdrop'⟩ := drop_cons_inv ix jj v rest' hdrop.symm
      by_cases hgap : v - s = 1
      · have hv1 : v = s + 1 := by omega
        simp only [findLimitAux, if_neg (not_not_intro hgap)]
        rw [List.getLastD_cons]
        rw [ih ix (jj + 1) v oc b (by omega) (by simpa using hv) hdrop'.symm]
        have : runBoundsAux oc s (v :: rest') = runBoundsAux oc v rest' := by
          simp only [runBoundsAux, if_pos hv1]
        rw [this]
      · have hv1 : ¬(v = s + 1) := by omega
        simp only [findLimitAux, if_pos hgap]
        rw [List.getLastD_cons]
        have hpy : pyPrev ix jj = s := by
          unfold pyPrev
          rw [if_neg (by omega)]
          exact hprev
        rw [hpy]
        rw [ih ix (jj + 1) v v (b ++ [oc, s]) (by omega) (by simpa using hv)
          hdrop'.symm]
        have : runBoundsAux oc s (v :: rest') = [oc, s] ++ runBoundsAux v v rest' := by
          simp only [runBoundsAux, if_neg hv1]
        rw [this]
        simp [List.append_assoc]

/-- The iterative bound finder on a nonempty strictly increasing index
array returns exactly the run endpoints. -/
theorem find_limit_runs {ix : List ℤ} (hne : ix ≠ [])
    (hch : List.Chain' (· < ·) ix) (b0 : List ℤ) :
    find_limit_for_integration ix b0 =
      (.ok (b0 ++ runBounds ix), b0 ++ runBounds ix) := by
  cases ix with
  | nil => exact absurd rfl hne
  | cons x xs =>
      simp only [find_limit_for_integration]
      rw [listMinI_chain_head hch]
      simp only [findLimitAux]
      rw [if_neg (not_not_intro (by omega : x - (x - 1) = 1))]
      have key := findLimitAux_runs xs (x :: xs) 1 x x b0 (by omega)
        (by simp) (by simp)
      rw [key]
      rfl

/-- Claim C5: on every nonempty strictly increasing array of non-negative
indices, the recursive bound finder and the iterative fallback, each
started with a fresh empty accumulator, produce identical bound lists
(both equal to the flattened run endpoints). -/
theorem claim_C5_equivalence : ∀ ix : List ℤ, ix ≠ [] →
    List.Chain' (· < ·) ix → (∀ v ∈ ix, 0 ≤ v) →
    (find_bound_for_integration ix []).1 = (find_limit_for_integration ix []).1 := by
  intro ix hne hch _
  unfold find_bound_for_integration
  rw [findBoundAux_runs ix.length ix [] hne hch le_rfl]
  rw [find_limit_runs hne hch []]

/-- Claim C5 witness: both finders agree on the index array `[0,1,5,6]`
(runs `[0,1]` and `[5,6]`). -/
theorem claim_C5_witness :
    (find_bound_for_integration [0, 1, 5, 6] []).1 =
      (find_limit_for_integration [0, 1, 5, 6] []).1 :=
  claim_C5_equivalence [0, 1, 5, 6] (by simp) (by norm_num [List.chain'_cons])
    (by decide)

end Watex
